import Mathlib

/-!
# A shallow embedding of `lpmap` (linear-probing hash map in Go)

This file models the Go package `lpmap` (file `lpmap.go`): a generic
open-addressing hash map with linear probing and tombstone deletion.

Modelling conventions:

* The three parallel arrays `keys`, `values`, `statuses` (always of equal
  length in the source) are modelled as a single list of slots
  `status × K × V`.  The Go zero value of `status` (the `Empty` state,
  unnamed in the source) is the constructor `status.empty`.
* Go `float64` quantities (`fillFactor` / `threshold`) are modelled as
  exact rationals given by an explicit numerator/denominator pair
  (`FloatVal`), and the source's floating-point comparisons and the
  capacity computation `int(float64(size)/fillFactor) + 1` are carried
  out exactly by cross-multiplication and by natural-number division.
* The key capability `Hash() uint64` is a parameter `hash : K → Nat`;
  the `uint64` range is modelled by reducing modulo `2^64`.
* The unbounded `for` loops of `Get`, `Set`, `Delete` and
  `getNextAvailableIndex` are modelled with an explicit fuel argument.
  During such a loop the slot array is not mutated and the probe index
  moves cyclically with period `capacity`, so the loop terminates if and
  only if it terminates within `capacity` steps; the public operations
  therefore run their loop with fuel `capacity`, and a `none` result
  means the Go loop never terminates (or an index is out of bounds,
  which cannot happen for tables built by `New`).
-/

namespace lpmap

/-- Slot status.  In the Go source `status` is a `uint8` with named
constants `dead = 1` and `occupied = 2`; the zero value (all slots of a
fresh array) is the `Empty` state. -/
inductive status where
  | empty
  | dead
  | occupied
deriving DecidableEq

/-- Exact model of a Go `float64` value as a fraction `num / den`.
Every finite `float64` is a dyadic rational, hence exactly representable
in this form with `den > 0`. -/
structure FloatVal where
  num : Int
  den : Nat
deriving DecidableEq

/-- The rational value denoted by a `FloatVal`. -/
def FloatVal.toRat (f : FloatVal) : ℚ := (f.num : ℚ) / (f.den : ℚ)

/-- The Go constant `defaultFillFactor = 0.5`. -/
def defaultFillFactor : FloatVal := ⟨1, 2⟩

/-- The Go struct `Map[K, V]`: slot array (keys/values/statuses fused
into one list), resize threshold and number of live entries. -/
structure Map (K V : Type) where
  slots : List (status × K × V)
  threshold : FloatVal
  numEntries : Nat
deriving DecidableEq

/-- `2^64`, the modulus of the Go `uint64` type returned by `Hash()`. -/
def uint64Mod : Nat := 18446744073709551616

/-- The home index `k.Hash() % uint64(len(m.keys))` computed by every
probing loop of the source. -/
def hashIdx (h cap : Nat) : Nat := h % uint64Mod % cap

/-- The probe-advance step of the source: `i++; if i == len { i = 0 }`. -/
def nextIdx (i len : Nat) : Nat := if i + 1 = len then 0 else i + 1

variable {K V : Type}

/-- Number of `Occupied` slots in a slot array. -/
def occCount (slots : List (status × K × V)) : Nat :=
  slots.countP fun s => decide (s.1 = status.occupied)

/-- `New` (lpmap.go:35-44): validates the fill factor (out-of-range
values fall back to `defaultFillFactor`), computes the capacity
`int(float64(size)/fillFactor) + 1` — for a fill factor `num/den > 0`
this real-valued computation equals `size * den / num` in
natural-number division — and allocates all-`Empty` slots. -/
def New (K V : Type) [Inhabited K] [Inhabited V] (size : Nat) (fillFactor : FloatVal) :
    Map K V :=
  let f := if fillFactor.num ≤ 0 ∨ (fillFactor.den : Int) < fillFactor.num then
    defaultFillFactor else fillFactor
  let nEntries := size * f.den / f.num.toNat + 1
  { slots := List.replicate nEntries (status.empty, default, default)
    threshold := f
    numEntries := 0 }

variable [DecidableEq K]

/-- The probing loop of `Get` (lpmap.go:54-67): return the value at an
`Occupied` slot with matching key, report not-found at an `Empty` slot,
otherwise advance.  The source's collision counter `coll` is incremented
but never consulted, so the loop has no iteration bound; `fuel`
exhaustion (`none`) models non-termination. -/
def getLoop (k : K) (slots : List (status × K × V)) : Nat → Nat → Option (Option V)
  | 0, _ => none
  | fuel + 1, i =>
    match slots[i]? with
    | none => none
    | some (st, key, v) =>
      if st = status.occupied ∧ key = k then some (some v)
      else if st = status.empty then some none
      else getLoop k slots fuel (nextIdx i slots.length)

/-- `Get` (lpmap.go:48-68): immediate not-found on an empty map, else
probe from the home index.  `some (some v)` = found with value `v`,
`some none` = not found, `none` = the loop never terminates.  The Go
function reads the map through a pointer but never writes to it, so its
translation is a pure function of the state. -/
def Get (hash : K → Nat) (m : Map K V) (k : K) : Option (Option V) :=
  if m.numEntries = 0 then some none
  else getLoop k m.slots m.slots.length (hashIdx (hash k) m.slots.length)

/-- The loop of `getNextAvailableIndex` (lpmap.go:84-97): first
non-`Occupied` slot in probe order. -/
def ganLoop (slots : List (status × K × V)) : Nat → Nat → Option Nat
  | 0, _ => none
  | fuel + 1, i =>
    match slots[i]? with
    | none => none
    | some (st, _, _) =>
      if st ≠ status.occupied then some i
      else ganLoop slots fuel (nextIdx i slots.length)

/-- `getNextAvailableIndex` (lpmap.go:84-97). -/
def getNextAvailableIndex (hash : K → Nat) (slots : List (status × K × V)) (k : K) :
    Option Nat :=
  ganLoop slots slots.length (hashIdx (hash k) slots.length)

/-- One iteration of the copy loop of `resize` (lpmap.go:109-117):
`Occupied` slots are re-inserted at their next available index in the
new array, others are skipped. -/
def resizeStep (hash : K → Nat) (acc : Option (List (status × K × V) × Nat))
    (e : status × K × V) : Option (List (status × K × V) × Nat) :=
  match acc with
  | none => none
  | some (ns, cnt) =>
    if e.1 = status.occupied then
      match getNextAvailableIndex hash ns e.2.1 with
      | none => none
      | some j => some (ns.set j (status.occupied, e.2.1, e.2.2), cnt + 1)
    else some (ns, cnt)

/-- `resize` (lpmap.go:99-126): clamp the new size to at least
`numEntries + 1`, allocate fresh all-`Empty` arrays, copy every
`Occupied` entry in storage order (dropping tombstones), and replace the
map wholesale, keeping the threshold. -/
def resize (hash : K → Nat) [Inhabited K] [Inhabited V] (m : Map K V) (newSize0 : Nat) :
    Option (Map K V) :=
  let newSize := if newSize0 < m.numEntries + 1 then m.numEntries + 1 else newSize0
  match m.slots.foldl (resizeStep hash)
      (some (List.replicate newSize (status.empty, default, default), 0)) with
  | none => none
  | some (ns, cnt) =>
    some { slots := ns, threshold := m.threshold, numEntries := cnt }

/-- The probing loop of `Set` (lpmap.go:134-153): the first
non-`Occupied` slot (whether `Empty` or `Dead`) receives the new entry
immediately; an `Occupied` slot with matching key has its value
overwritten in place; otherwise advance.  The returned flag records
whether a fresh slot was taken (`numEntries` is to be incremented). -/
def setLoop (k : K) (v : V) (slots : List (status × K × V)) :
    Nat → Nat → Option (List (status × K × V) × Bool)
  | 0, _ => none
  | fuel + 1, i =>
    match slots[i]? with
    | none => none
    | some (st, key, _) =>
      if st ≠ status.occupied then some (slots.set i (status.occupied, k, v), true)
      else if key = k then some (slots.set i (st, key, v), false)
      else setLoop k v slots fuel (nextIdx i slots.length)

/-- `Set` (lpmap.go:129-154): if `numEntries + 1 > len(keys) * threshold`
(evaluated exactly by cross-multiplication) resize to twice the current
capacity, then run the probing loop from the home index of `k`. -/
def Set (hash : K → Nat) [Inhabited K] [Inhabited V] (m : Map K V) (k : K) (v : V) :
    Option (Map K V) :=
  match (if ((m.numEntries : Int) + 1) * m.threshold.den >
      (m.slots.length : Int) * m.threshold.num then
      resize hash m (2 * m.slots.length) else some m) with
  | none => none
  | some m1 =>
    match setLoop k v m1.slots m1.slots.length (hashIdx (hash k) m1.slots.length) with
    | none => none
    | some (slots', inserted) =>
      some { slots := slots'
             threshold := m1.threshold
             numEntries := if inserted then m1.numEntries + 1 else m1.numEntries }

/-- The probing loop of `Delete` (lpmap.go:163-177): mark a matching
`Occupied` slot `Dead` and report `true`; report `false` at an `Empty`
slot; otherwise advance. -/
def deleteLoop (k : K) (slots : List (status × K × V)) :
    Nat → Nat → Option (Bool × List (status × K × V))
  | 0, _ => none
  | fuel + 1, i =>
    match slots[i]? with
    | none => none
    | some (st, key, v) =>
      if st = status.occupied ∧ key = k then
        some (true, slots.set i (status.dead, key, v))
      else if st = status.empty then some (false, slots)
      else deleteLoop k slots fuel (nextIdx i slots.length)

/-- `Delete` (lpmap.go:158-178): immediate `false` on an empty map, else
probe; on success the slot is tombstoned and `numEntries` decremented. -/
def Delete (hash : K → Nat) (m : Map K V) (k : K) : Option (Bool × Map K V) :=
  if m.numEntries = 0 then some (false, m)
  else
    match deleteLoop k m.slots m.slots.length (hashIdx (hash k) m.slots.length) with
    | none => none
    | some (found, slots') =>
      some (found,
        { slots := slots'
          threshold := m.threshold
          numEntries := if found then m.numEntries - 1 else m.numEntries })

/-- `Size` (lpmap.go:181-183). -/
def Size (m : Map K V) : Nat := m.numEntries

/-- A public mutating operation of the API. -/
inductive Op (K V : Type) where
  | set (k : K) (v : V)
  | del (k : K)

/-- Run one public operation; `none` if its loop never terminates. -/
def runOp (hash : K → Nat) [Inhabited K] [Inhabited V] (m : Map K V) :
    Op K V → Option (Map K V)
  | .set k v => Set hash m k v
  | .del k => (Delete hash m k).map (·.2)

/-- Run a sequence of public operations. -/
def runOps (hash : K → Nat) [Inhabited K] [Inhabited V] :
    List (Op K V) → Map K V → Option (Map K V)
  | [], m => some m
  | op :: ops, m => (runOp hash m op).bind (runOps hash ops)

/-! ## Concrete scenario data

All scenarios below use identity hash on natural-number keys and start
from `New(4, 0.5)` (capacity 9, threshold 0.5) unless noted.  They
exercise the tombstone-insertion behaviour of `Set` (lpmap.go:134-153),
which accepts the *first* non-`Occupied` slot it meets without first
scanning the remainder of the probe chain for an `Occupied` slot holding
the same key. -/

/-- `Set(0,10); Set(9,20); Delete(0); Set(9,30)`: keys 0 and 9 share
home slot 0; the delete leaves a tombstone there, and the final set
re-inserts key 9 into it, duplicating the key. -/
def c1ops : List (Op ℕ ℕ) := [Op.set 0 10, Op.set 9 20, Op.del 0, Op.set 9 30]

/-- Prefix of `c1ops` stopping just before the duplicating set. -/
def c2ops : List (Op ℕ ℕ) := [Op.set 0 10, Op.set 9 20, Op.del 0]

/-- Same duplicate-producing sequence as `c1ops`. -/
def c3ops : List (Op ℕ ℕ) := [Op.set 0 10, Op.set 9 20, Op.del 0, Op.set 9 30]

/-- Duplicate key 17 with its two copies wrapped around the end of the
array: the fresh copy (value 30) at storage index 8, the stale copy
(value 20) at storage index 0. -/
def c4ops : List (Op ℕ ℕ) := [Op.set 8 11, Op.set 17 20, Op.del 8, Op.set 17 30]

/-- Three inserts of unrelated keys; the last one drives `numEntries`
past `capacity * threshold` and so triggers `resize(18)`. -/
def c4ops2 : List (Op ℕ ℕ) := [Op.set 2 12, Op.set 3 13, Op.set 4 14]

/-- Fill-and-delete rounds that tombstone eight of the nine slots
(`numEntries` never exceeds 4, so no resize fires), then one insert
occupies the ninth slot, leaving no `Empty` slot at all. -/
def c5ops : List (Op ℕ ℕ) :=
  [Op.set 0 10, Op.set 1 11, Op.set 2 12, Op.set 3 13,
   Op.del 0, Op.del 1, Op.del 2, Op.del 3,
   Op.set 4 14, Op.set 5 15, Op.set 6 16, Op.set 7 17,
   Op.del 4, Op.del 5, Op.del 6, Op.del 7, Op.set 8 18]

/-- The table reached by `c5ops`: eight `Dead` slots, one `Occupied`
slot, no `Empty` slot. -/
def c5state : Map ℕ ℕ :=
  { slots := [(status.dead, 0, 10), (status.dead, 1, 11), (status.dead, 2, 12),
      (status.dead, 3, 13), (status.dead, 4, 14), (status.dead, 5, 15),
      (status.dead, 6, 16), (status.dead, 7, 17), (status.occupied, 8, 18)]
    threshold := ⟨1, 2⟩
    numEntries := 1 }

/-- Five inserts into `New(4, 1)` (capacity 5, fill ratio exactly 1):
the check `numEntries + 1 > capacity * 1` stays false up to the fifth
insert, which fills the last slot. -/
def c6ops : List (Op ℕ ℕ) :=
  [Op.set 0 10, Op.set 1 11, Op.set 2 12, Op.set 3 13, Op.set 4 14]

/-- The table reached from `New(4, 0.5)` by `Set(0, 10)`. -/
def c6wstate : Map ℕ ℕ :=
  { slots := (status.occupied, 0, 10) :: List.replicate 8 (status.empty, 0, 0)
    threshold := ⟨1, 2⟩
    numEntries := 1 }

/-- The duplicate-key table of `c4ops` plus two more inserts; its `Size`
is 4, so the very next insert would trigger exactly `resize(18)`. -/
def c7ops : List (Op ℕ ℕ) :=
  [Op.set 8 11, Op.set 17 20, Op.del 8, Op.set 17 30, Op.set 2 12, Op.set 3 13]

/-- The table reached from `New(4, 0.5)` by `Set(3, 7); Delete(3)`. -/
def c9wstate : Map ℕ ℕ :=
  { slots := [(status.empty, 0, 0), (status.empty, 0, 0), (status.empty, 0, 0),
      (status.dead, 3, 7), (status.empty, 0, 0), (status.empty, 0, 0),
      (status.empty, 0, 0), (status.empty, 0, 0), (status.empty, 0, 0)]
    threshold := ⟨1, 2⟩
    numEntries := 0 }

/-- The inductive invariant of reachable tables whose (validated) fill
ratio is strictly below 1: `numEntries` counts the `Occupied` slots, it
is strictly below the capacity, and the threshold is a rational in
`(0, 1)`. -/
def Inv (m : Map K V) : Prop :=
  m.numEntries = occCount m.slots ∧
  m.numEntries < m.slots.length ∧
  0 < m.threshold.num ∧ m.threshold.num < (m.threshold.den : Int)

/-! ## Helper lemmas -/

/-- Replacing the element at an in-bounds index changes `countP` by the
difference of the predicate on the old and new elements. -/
lemma countP_set_add {α : Type _} (p : α → Bool) :
    ∀ (l : List α) (j : Nat) (a x : α), l[j]? = some a →
      (l.set j x).countP p + (if p a then 1 else 0) =
        l.countP p + (if p x then 1 else 0) := by
  intro l
  induction l with
  | nil => intro j a x h; simp at h
  | cons hd tl ih =>
    intro j a x h
    cases j with
    | zero =>
      simp only [List.getElem?_cons_zero, Option.some_inj] at h
      subst h
      simp only [List.set_cons_zero, List.countP_cons]
      omega
    | succ j =>
      simp only [List.getElem?_cons_succ] at h
      simp only [List.set_cons_succ, List.countP_cons]
      have := ih j a x h
      omega

omit [DecidableEq K] in
/-- A successful `getNextAvailableIndex` loop returns the index of an
in-bounds non-`Occupied` slot. -/
lemma ganLoop_some_spec {slots : List (status × K × V)} :
    ∀ fuel i j, ganLoop slots fuel i = some j →
      ∃ e, slots[j]? = some e ∧ e.1 ≠ status.occupied := by
  intro fuel
  induction fuel with
  | zero => intro i j h; simp [ganLoop] at h
  | succ n ih =>
    intro i j h
    simp only [ganLoop] at h
    cases hs : slots[i]? with
    | none => simp [hs] at h
    | some e =>
      obtain ⟨st, key, v⟩ := e
      simp only [hs] at h
      split at h
      · rename_i hocc
        simp only [Option.some_inj] at h
        subst h
        exact ⟨_, hs, hocc⟩
      · exact ih _ _ h

/-- A successful `Set` probing loop preserves the array length and
increases the `Occupied` count exactly when it claims a fresh slot. -/
lemma setLoop_some_spec {K V : Type} [DecidableEq K] {k : K} {v : V}
    {slots : List (status × K × V)} :
    ∀ fuel i s' ins, setLoop k v slots fuel i = some (s', ins) →
      s'.length = slots.length ∧
      occCount s' = occCount slots + (if ins then 1 else 0) := by
  intro fuel
  induction fuel with
  | zero => intro i s' ins h; simp [setLoop] at h
  | succ n ih =>
    intro i s' ins h
    simp only [setLoop] at h
    cases hs : slots[i]? with
    | none => simp [hs] at h
    | some e =>
      obtain ⟨st, key, v0⟩ := e
      simp only [hs] at h
      split at h
      · rename_i hocc
        simp only [Option.some_inj, Prod.mk.injEq] at h
        obtain ⟨rfl, rfl⟩ := h
        have hcnt := countP_set_add (fun s => decide (s.1 = status.occupied))
          slots i (st, key, v0) (status.occupied, k, v) hs
        refine ⟨by simp, ?_⟩
        simp only [occCount]
        simp [hocc] at hcnt ⊢
        omega
      · split at h
        · rename_i hocc hkey
          simp only [Option.some_inj, Prod.mk.injEq] at h
          obtain ⟨rfl, rfl⟩ := h
          have hcnt := countP_set_add (fun s => decide (s.1 = status.occupied))
            slots i (st, key, v0) (st, key, v) hs
          refine ⟨by simp, ?_⟩
          simp only [occCount]
          simp at hcnt ⊢
          omega
        · exact ih _ _ _ h

/-- A successful `Delete` probing loop preserves the array length; on
`true` it removes exactly one `Occupied` slot, on `false` it returns the
array unchanged. -/
lemma deleteLoop_some_spec {K V : Type} [DecidableEq K] {k : K}
    {slots : List (status × K × V)} :
    ∀ fuel i b s', deleteLoop k slots fuel i = some (b, s') →
      s'.length = slots.length ∧
      (b = true → occCount slots = occCount s' + 1) ∧
      (b = false → s' = slots) := by
  intro fuel
  induction fuel with
  | zero => intro i b s' h; simp [deleteLoop] at h
  | succ n ih =>
    intro i b s' h
    simp only [deleteLoop] at h
    cases hs : slots[i]? with
    | none => simp [hs] at h
    | some e =>
      obtain ⟨st, key, v⟩ := e
      simp only [hs] at h
      split at h
      · rename_i hmatch
        simp only [Option.some_inj, Prod.mk.injEq] at h
        obtain ⟨rfl, rfl⟩ := h
        have hcnt := countP_set_add (fun s => decide (s.1 = status.occupied))
          slots i (st, key, v) (status.dead, key, v) hs
        refine ⟨by simp, fun _ => ?_, by simp⟩
        simp only [occCount]
        simp [hmatch.1] at hcnt ⊢
        omega
      · split at h
        · simp only [Option.some_inj, Prod.mk.injEq] at h
          obtain ⟨rfl, rfl⟩ := h
          exact ⟨rfl, by simp, fun _ => rfl⟩
        · exact ih _ _ _ h

omit [DecidableEq K] in
/-- The copy fold of `resize` is strict in its accumulator. -/
lemma foldl_resizeStep_none {hash : K → Nat} :
    ∀ l : List (status × K × V), l.foldl (resizeStep hash) none = none := by
  intro l
  induction l with
  | nil => rfl
  | cons e t ih => simpa [resizeStep] using ih

omit [DecidableEq K] in
lemma occCount_nil : occCount ([] : List (status × K × V)) = 0 := rfl

omit [DecidableEq K] in
lemma occCount_replicate_empty (n : Nat) (k : K) (v : V) :
    occCount (List.replicate n (status.empty, k, v)) = 0 := by
  simp [occCount, List.countP_eq_zero]

omit [DecidableEq K] in
/-- A successful copy fold of `resize` preserves the new array's length
and transfers exactly the `Occupied` entries of the walked old array,
both into the counter and into the `Occupied` count of the new array. -/
lemma foldl_resizeStep_spec {hash : K → Nat} :
    ∀ (olds : List (status × K × V)) (ns : List (status × K × V)) (cnt : Nat)
      (res : List (status × K × V) × Nat),
      olds.foldl (resizeStep hash) (some (ns, cnt)) = some res →
      res.1.length = ns.length ∧ res.2 = cnt + occCount olds ∧
        occCount res.1 = occCount ns + occCount olds := by
  intro olds
  induction olds with
  | nil =>
    intro ns cnt res h
    simp only [List.foldl_nil, Option.some_inj] at h
    subst h
    simp [occCount_nil]
  | cons e t ih =>
    intro ns cnt res h
    simp only [List.foldl_cons] at h
    by_cases hocc : e.1 = status.occupied
    · rw [show resizeStep hash (some (ns, cnt)) e =
          (match getNextAvailableIndex hash ns e.2.1 with
           | none => none
           | some j => some (ns.set j (status.occupied, e.2.1, e.2.2), cnt + 1)) from by
        simp [resizeStep, hocc]] at h
      cases hg : getNextAvailableIndex hash ns e.2.1 with
      | none =>
        rw [hg] at h
        rw [foldl_resizeStep_none] at h
        exact absurd h (by simp)
      | some j =>
        rw [hg] at h
        obtain ⟨old, hold, holdocc⟩ := ganLoop_some_spec _ _ _ hg
        have hcnt := countP_set_add (fun s => decide (s.1 = status.occupied))
          ns j old (status.occupied, e.2.1, e.2.2) hold
        obtain ⟨h1, h2, h3⟩ := ih _ _ _ h
        have he : occCount (e :: t) = occCount t + 1 := by
          simp [occCount, List.countP_cons, hocc]
        have hset : occCount (ns.set j (status.occupied, e.2.1, e.2.2)) =
            occCount ns + 1 := by
          simp only [occCount] at hcnt ⊢
          simp [holdocc] at hcnt ⊢
          omega
        rw [List.length_set] at h1
        refine ⟨h1, by omega, by omega⟩
    · rw [show resizeStep hash (some (ns, cnt)) e = some (ns, cnt) from by
        simp [resizeStep, hocc]] at h
      obtain ⟨h1, h2, h3⟩ := ih _ _ _ h
      have he : occCount (e :: t) = occCount t := by
        simp [occCount, List.countP_cons, hocc]
      exact ⟨h1, by omega, by omega⟩

omit [DecidableEq K] in
/-- A successful `resize` keeps the threshold, produces an array of the
clamped requested size, and sets `numEntries` (and the actual `Occupied`
count) to the `Occupied` count of the old array. -/
lemma resize_some_spec {hash : K → Nat} [Inhabited K] [Inhabited V] {m : Map K V}
    {n : Nat} {m' : Map K V} (h : resize hash m n = some m') :
    m'.threshold = m.threshold ∧
    m'.slots.length = (if n < m.numEntries + 1 then m.numEntries + 1 else n) ∧
    m'.numEntries = occCount m.slots ∧ occCount m'.slots = occCount m.slots := by
  simp only [resize] at h
  cases hf : m.slots.foldl (resizeStep hash)
      (some (List.replicate (if n < m.numEntries + 1 then m.numEntries + 1 else n)
        (status.empty, default, default), 0)) with
  | none => rw [hf] at h; exact absurd h (by simp)
  | some res =>
    rw [hf] at h
    obtain ⟨h1, h2, h3⟩ := foldl_resizeStep_spec _ _ _ _ hf
    simp only [Option.some_inj] at h
    subst h
    rw [List.length_replicate] at h1
    rw [occCount_replicate_empty] at h3
    refine ⟨rfl, h1, ?_, ?_⟩
    · show res.2 = occCount m.slots
      omega
    · show occCount res.1 = occCount m.slots
      omega

/-- `Set` preserves the reachability invariant.  In the no-resize branch
the threshold check bounds `numEntries + 1` by `capacity * threshold`,
which is strictly below the capacity since the threshold is below 1; in
the resize branch the doubled capacity strictly exceeds
`numEntries + 1`. -/
lemma Inv_Set {hash : K → Nat} [Inhabited K] [Inhabited V] {m : Map K V} {k : K} {v : V}
    {m' : Map K V} (hInv : Inv m) (h : Set hash m k v = some m') : Inv m' := by
  obtain ⟨hc, hlt, hnum, hnd⟩ := hInv
  have hlenpos : 0 < m.slots.length := Nat.lt_of_le_of_lt (Nat.zero_le _) hlt
  simp only [Set] at h
  split at h
  · exact absurd h (by simp)
  · rename_i m1 heq
    split at h
    · exact absurd h (by simp)
    · rename_i slots' ins hset
      simp only [Option.some_inj] at h
      subst h
      obtain ⟨hl1, ho1⟩ := setLoop_some_spec _ _ _ _ hset
      have hm1thr : m1.threshold = m.threshold := by
        split at heq
        · exact (resize_some_spec heq).1
        · simp only [Option.some_inj] at heq; subst heq; rfl
      have hm1cnt : m1.numEntries = m.numEntries := by
        split at heq
        · rw [(resize_some_spec heq).2.2.1, ← hc]
        · simp only [Option.some_inj] at heq; subst heq; rfl
      have hm1occ : occCount m1.slots = m.numEntries := by
        split at heq
        · rw [(resize_some_spec heq).2.2.2, ← hc]
        · simp only [Option.some_inj] at heq; subst heq; exact hc.symm
      have hkey : m.numEntries + 1 < m1.slots.length := by
        split at heq
        · have hspec := resize_some_spec heq
          have hge : ¬ (2 * m.slots.length < m.numEntries + 1) := by omega
          rw [hspec.2.1, if_neg hge]
          omega
        · rename_i hcond
          simp only [Option.some_inj] at heq
          subst heq
          have hcond' : ((m.numEntries : Int) + 1) * m.threshold.den ≤
              (m.slots.length : Int) * m.threshold.num := le_of_not_lt hcond
          have hlen0 : (0 : Int) < (m.slots.length : Int) := by exact_mod_cast hlenpos
          have hden0 : (0 : Int) ≤ (m.threshold.den : Int) := Int.natCast_nonneg _
          have hres : (m.numEntries : Int) + 1 < (m.slots.length : Int) := by
            by_contra hcon
            push_neg at hcon
            have h1 : (m.slots.length : Int) * m.threshold.den ≤
                ((m.numEntries : Int) + 1) * m.threshold.den :=
              mul_le_mul_of_nonneg_right hcon hden0
            have h3 : (m.slots.length : Int) * m.threshold.num <
                (m.slots.length : Int) * m.threshold.den :=
              mul_lt_mul_of_pos_left hnd hlen0
            linarith
          exact_mod_cast hres
      refine ⟨?_, ?_, ?_, ?_⟩
      · show (if ins then m1.numEntries + 1 else m1.numEntries) = occCount slots'
        rw [ho1, hm1occ, hm1cnt]
        cases ins <;> simp
      · show (if ins then m1.numEntries + 1 else m1.numEntries) < slots'.length
        rw [hl1, hm1cnt]
        cases ins <;> simp <;> omega
      · show 0 < m1.threshold.num
        rw [hm1thr]; exact hnum
      · show m1.threshold.num < (m1.threshold.den : Int)
        rw [hm1thr]; exact hnd

/-- `Delete` preserves the reachability invariant. -/
lemma Inv_Delete {hash : K → Nat} {m : Map K V} {k : K} {b : Bool} {m' : Map K V}
    (hInv : Inv m) (h : Delete hash m k = some (b, m')) : Inv m' := by
  obtain ⟨hc, hlt, hnum, hnd⟩ := hInv
  simp only [Delete] at h
  split at h
  · simp only [Option.some_inj, Prod.mk.injEq] at h
    obtain ⟨rfl, rfl⟩ := h
    exact ⟨hc, hlt, hnum, hnd⟩
  · split at h
    · exact absurd h (by simp)
    · rename_i found slots' hdel
      simp only [Option.some_inj, Prod.mk.injEq] at h
      obtain ⟨rfl, rfl⟩ := h
      obtain ⟨hl, htrue, hfalse⟩ := deleteLoop_some_spec _ _ _ _ hdel
      cases found with
      | false =>
        have hs := hfalse rfl
        subst hs
        exact ⟨hc, hlt, hnum, hnd⟩
      | true =>
        have ho := htrue rfl
        refine ⟨?_, ?_, hnum, hnd⟩
        · show m.numEntries - 1 = occCount slots'
          omega
        · show m.numEntries - 1 < slots'.length
          rw [hl]
          omega

lemma Inv_runOp {hash : K → Nat} [Inhabited K] [Inhabited V] {m m' : Map K V}
    {op : Op K V} (hInv : Inv m) (h : runOp hash m op = some m') : Inv m' := by
  cases op with
  | set k v => exact Inv_Set hInv h
  | del k =>
    simp only [runOp, Option.map_eq_some'] at h
    obtain ⟨⟨b, m2⟩, hd, rfl⟩ := h
    exact Inv_Delete hInv hd

lemma Inv_runOps {hash : K → Nat} [Inhabited K] [Inhabited V] :
    ∀ (ops : List (Op K V)) (m m' : Map K V), Inv m →
      runOps hash ops m = some m' → Inv m' := by
  intro ops
  induction ops with
  | nil =>
    intro m m' hInv h
    simp only [runOps, Option.some_inj] at h
    subst h
    exact hInv
  | cons op ops ih =>
    intro m m' hInv h
    simp only [runOps, Option.bind_eq_some] at h
    obtain ⟨m1, h1, h2⟩ := h
    exact ih _ _ (Inv_runOp hInv h1) h2

/-- A fresh table satisfies the invariant whenever its validated
threshold lies strictly below 1 (this excludes only `fillRatio = 1`:
invalid inputs are replaced by the default 0.5). -/
lemma Inv_New {K V : Type} [DecidableEq K] [Inhabited K] [Inhabited V] (size : Nat)
    (f : FloatVal)
    (hf : (New K V size f).threshold.num < ((New K V size f).threshold.den : Int)) :
    Inv (New K V size f) := by
  refine ⟨?_, ?_, ?_, hf⟩
  · show (0 : Nat) = occCount (List.replicate _ _)
    rw [occCount_replicate_empty]
  · show (0 : Nat) < (List.replicate _ _).length
    rw [List.length_replicate]
    exact Nat.succ_pos _
  · show 0 < (New K V size f).threshold.num
    simp only [New]
    by_cases hval : f.num ≤ 0 ∨ (f.den : Int) < f.num
    · rw [if_pos hval]; decide
    · rw [if_neg hval]
      push_neg at hval
      exact hval.1

/-- `Set` preserves capacity positivity (for any threshold). -/
lemma capPos_Set {hash : K → Nat} [Inhabited K] [Inhabited V] {m m' : Map K V}
    {k : K} {v : V} (hpos : 0 < m.slots.length) (h : Set hash m k v = some m') :
    0 < m'.slots.length := by
  simp only [Set] at h
  split at h
  · exact absurd h (by simp)
  · rename_i m1 heq
    split at h
    · exact absurd h (by simp)
    · rename_i slots' ins hset
      simp only [Option.some_inj] at h
      subst h
      obtain ⟨hl1, _⟩ := setLoop_some_spec _ _ _ _ hset
      show 0 < slots'.length
      rw [hl1]
      split at heq
      · have hspec := resize_some_spec heq
        rw [hspec.2.1]
        split <;> omega
      · simp only [Option.some_inj] at heq
        subst heq
        exact hpos

/-- `Delete` preserves capacity positivity. -/
lemma capPos_Delete {hash : K → Nat} {m m' : Map K V} {k : K} {b : Bool}
    (hpos : 0 < m.slots.length) (h : Delete hash m k = some (b, m')) :
    0 < m'.slots.length := by
  simp only [Delete] at h
  split at h
  · simp only [Option.some_inj, Prod.mk.injEq] at h
    obtain ⟨rfl, rfl⟩ := h
    exact hpos
  · split at h
    · exact absurd h (by simp)
    · rename_i found slots' hdel
      simp only [Option.some_inj, Prod.mk.injEq] at h
      obtain ⟨rfl, rfl⟩ := h
      obtain ⟨hl, _, _⟩ := deleteLoop_some_spec _ _ _ _ hdel
      show 0 < slots'.length
      rw [hl]
      exact hpos

lemma capPos_runOps {hash : K → Nat} [Inhabited K] [Inhabited V] :
    ∀ (ops : List (Op K V)) (m m' : Map K V), 0 < m.slots.length →
      runOps hash ops m = some m' → 0 < m'.slots.length := by
  intro ops
  induction ops with
  | nil =>
    intro m m' hpos h
    simp only [runOps, Option.some_inj] at h
    subst h
    exact hpos
  | cons op ops ih =>
    intro m m' hpos h
    simp only [runOps, Option.bind_eq_some] at h
    obtain ⟨m1, h1, h2⟩ := h
    refine ih _ _ ?_ h2
    cases op with
    | set k v => exact capPos_Set hpos h1
    | del k =>
      simp only [runOp, Option.map_eq_some'] at h1
      obtain ⟨⟨b, m2⟩, hd, rfl⟩ := h1
      exact capPos_Delete hpos hd

lemma New_capPos {K V : Type} [Inhabited K] [Inhabited V] (size : Nat) (f : FloatVal) :
    0 < (New K V size f).slots.length := by
  show (0 : Nat) < (List.replicate _ _).length
  rw [List.length_replicate]
  exact Nat.succ_pos _

/-- `int(float64(a)/(p/q))` as a natural-number floor: for `p > 0`,
`⌊a / (p/q)⌋ = a * q / p` in natural-number division. -/
lemma natfloor_div_pair (a : Nat) (p : Int) (q : Nat) (hp : 0 < p) :
    ⌊(a : ℚ) / ((p : ℚ) / (q : ℚ))⌋₊ = a * q / p.toNat := by
  have h1 : ((p.toNat : ℕ) : ℚ) = (p : ℚ) := by
    exact_mod_cast congrArg (Int.cast : ℤ → ℚ) (Int.toNat_of_nonneg hp.le)
  rw [div_div_eq_mul_div, ← h1]
  have h2 : (a : ℚ) * (q : ℚ) = ((a * q : ℕ) : ℚ) := by push_cast; ring
  rw [h2, Nat.floor_div_nat, Nat.floor_natCast]

/-- For a `FloatVal` with positive denominator, the value lies in `(0,1]`
exactly when the source's validity test `fillFactor <= 0 || fillFactor > 1`
fails. -/
lemma valid_iff (f : FloatVal) (hden : 0 < f.den) :
    (0 < f.toRat ∧ f.toRat ≤ 1) ↔ ¬ (f.num ≤ 0 ∨ (f.den : Int) < f.num) := by
  rw [FloatVal.toRat]
  have hd : (0 : ℚ) < (f.den : ℚ) := by exact_mod_cast hden
  have h1 : (0 < (f.num : ℚ) / (f.den : ℚ)) ↔ 0 < f.num := by
    rw [lt_div_iff₀ hd]
    simp
  have h2 : ((f.num : ℚ) / (f.den : ℚ) ≤ 1) ↔ f.num ≤ (f.den : Int) := by
    rw [div_le_one hd]
    exact_mod_cast Iff.rfl
  rw [h1, h2]
  omega

/-- In `c5state` the probing loop of `Get` for the absent key 10 never
returns, whatever fuel it is given: every slot is `Dead` or `Occupied`
with a different key, and the source's loop (whose collision counter
`coll` is never consulted) has no other exit. -/
lemma c5_getLoop_diverges : ∀ fuel i, i < 9 → getLoop 10 c5state.slots fuel i = none := by
  intro fuel
  induction fuel with
  | zero => intro i _; rfl
  | succ n ih =>
    intro i hi
    interval_cases i <;>
      · simp only [getLoop, c5state, List.getElem?_cons_zero, List.getElem?_cons_succ,
          List.length_cons, List.length_nil, nextIdx]
        norm_num
        exact ih _ (by norm_num)

/-! ## Claim theorems -/

/-- C1.  The claim states that every reachable table has at most one
`Occupied` slot per key, because `Set` checks every `Occupied` slot of
the full probe chain before accepting a non-`Occupied` slot.  The code
does not: probing for key 9 (home slot 0, capacity 9) meets the
tombstone left by `Delete(0)` at slot 0 and inserts there at once, never
reaching the `Occupied` slot 1 that already holds key 9.  The reachable
state below has **two** `Occupied` slots with key 9. -/
theorem claim_C1_duplicate_occupied_key :
    ((runOps id c1ops (New ℕ ℕ 4 ⟨1, 2⟩)).map
      fun m => m.slots.countP fun s => decide (s.1 = status.occupied ∧ s.2.1 = 9)) =
    some 2 := by decide

/-- C2.  The claim states `Size()` equals the number of distinct live
keys and in particular is never incremented by a `Set` of a present key.
In the state reached by `c2ops` the key 9 is present (`Get` finds value
20) and `Size() = 1`, yet `Set(9, 30)` lands on the tombstone at slot 0
and increments `Size()` to 2, while the set of live keys is still
`{9}`. -/
theorem claim_C2_size_incremented_for_present_key :
    ((runOps id c2ops (New ℕ ℕ 4 ⟨1, 2⟩)).map
      fun m => (Size m, Get id m 9)) = some (1, some (some 20)) ∧
    (((runOps id c2ops (New ℕ ℕ 4 ⟨1, 2⟩)).bind
      fun m => Set id m 9 30).map Size) = some 2 := by
  exact ⟨by decide, by decide⟩

/-- C3.  The claim states that after `Delete(K)` returns `true`, `Get(K)`
reports not-found and a second `Delete(K)` returns `false`.  In the
duplicate-key state reached by `c3ops`, `Delete(9)` tombstones only the
first copy (slot 0) and returns `true`; `Get(9)` then still finds the
stale second copy (value 20), and the second `Delete(9)` also returns
`true`. -/
theorem claim_C3_get_finds_key_after_delete :
    ((runOps id c3ops (New ℕ ℕ 4 ⟨1, 2⟩)).map
      fun m => (Delete id m 9).map fun r =>
        (r.1, Get id r.2 9, (Delete id r.2 9).map Prod.fst)) =
    some (some (true, some (some 20), some true)) := by decide

/-- C4.  The claim states `Get(K)` keeps returning the value of the last
`Set(K, _)` across operations on other keys, including resizes.  After
`c4ops` the last `Set(17, _)` stored 30 and `Get(17)` returns it; the
duplicate copies of key 17 sit at storage indices 8 (value 30, earlier
in probe order from home slot 8) and 0 (stale value 20).  The resize
triggered by `Set(4, 14)` rehashes in storage order, which re-inserts
the stale copy first and puts it earlier in the new probe chain, so
`Get(17)` afterwards returns 20 although no operation touched key 17. -/
theorem claim_C4_get_value_changes_after_resize :
    ((runOps id c4ops (New ℕ ℕ 4 ⟨1, 2⟩)).map fun m => Get id m 17) =
      some (some (some 30)) ∧
    (((runOps id c4ops (New ℕ ℕ 4 ⟨1, 2⟩)).bind (runOps id c4ops2)).map
      fun m => Get id m 17) = some (some (some 20)) := by
  exact ⟨by decide, by decide⟩

/-- C5.  The claim states that for every reachable table (any valid fill
ratio) `Get` terminates, visiting each slot at most once.  The table
`c5state` is reached through the public API with the default fill ratio
0.5, yet `Get(10)` does not terminate at all: the fill-ratio check
bounds only the `Occupied` count, not the tombstone count, and the
loop's collision counter `coll` (lpmap.go:53, 63) is incremented but
never tested, so no slot-visit bound exists. -/
theorem claim_C5_get_diverges :
    runOps id c5ops (New ℕ ℕ 4 ⟨1, 2⟩) = some c5state ∧
    Get id c5state 10 = none ∧
    ∀ fuel, getLoop 10 c5state.slots fuel (hashIdx 10 c5state.slots.length) = none := by
  refine ⟨by decide, by decide, fun fuel => c5_getLoop_diverges fuel 1 (by norm_num)⟩

/-- C6, counterexample.  The claim asserts `count < capacity` for every
valid fill ratio including 1.  With `fillRatio = 1` (a valid value: the
source rejects only `fillFactor <= 0 || fillFactor > 1`), `New(4, 1)`
has capacity 5 and the check `numEntries + 1 > capacity * 1` stays false
through five inserts, after which `count = capacity = 5`. -/
theorem claim_C6_counterexample :
    FloatVal.toRat ⟨1, 1⟩ = 1 ∧
    ((runOps id c6ops (New ℕ ℕ 4 ⟨1, 1⟩)).map
      fun m => (m.numEntries, m.slots.length, decide (m.numEntries < m.slots.length))) =
    some (5, 5, false) := by
  exact ⟨by norm_num [FloatVal.toRat], by decide⟩

/-- C6, amended.  For every fill ratio whose validated value is strictly
below 1 — that is, every `fillRatio` except exactly 1, since invalid
inputs fall back to the default 0.5 — every table reachable through the
public API satisfies `count < capacity` (and `0 ≤ count` holds trivially
in ℕ). -/
theorem claim_C6_count_lt_capacity {K V : Type} [DecidableEq K] [Inhabited K]
    [Inhabited V] (hash : K → Nat) (size : Nat) (f : FloatVal) (ops : List (Op K V))
    (m : Map K V)
    (hf : (New K V size f).threshold.num < ((New K V size f).threshold.den : Int))
    (h : runOps hash ops (New K V size f) = some m) :
    m.numEntries < m.slots.length :=
  (Inv_runOps ops _ m (Inv_New size f hf) h).2.1

/-- Witness for C6: the concrete table reached from `New(4, 0.5)` by
`Set(0, 10)` satisfies both hypotheses and the bound. -/
theorem claim_C6_witness :
    (New ℕ ℕ 4 ⟨1, 2⟩).threshold.num < ((New ℕ ℕ 4 ⟨1, 2⟩).threshold.den : Int) ∧
    runOps id [Op.set 0 10] (New ℕ ℕ 4 ⟨1, 2⟩) = some c6wstate ∧
    c6wstate.numEntries < c6wstate.slots.length :=
  ⟨by decide, by decide,
    claim_C6_count_lt_capacity id 4 ⟨1, 2⟩ [Op.set 0 10] c6wstate (by decide) (by decide)⟩

/-- C7.  The claim states every key retrievable by `Get` immediately
before a resize is retrievable immediately after *with the same value*.
In the reachable pre-resize state below (`Size = 4`; the very next
`Set(4, _)` would trigger exactly `resize(18)`), `Get(17)` returns 30;
after `resize(18)` it returns the stale duplicate's value 20.  The
remaining conjuncts of the claim do hold here: the new capacity 18 is at
least `count + 1`, `Size()` is unchanged, and no `Dead` slot remains. -/
theorem claim_C7_resize_changes_retrieved_value :
    ((runOps id c7ops (New ℕ ℕ 4 ⟨1, 2⟩)).map fun m => (Size m, Get id m 17)) =
      some (4, some (some 30)) ∧
    (((runOps id c7ops (New ℕ ℕ 4 ⟨1, 2⟩)).bind fun m => resize id m 18).map
      fun m2 => (Size m2, Get id m2 17, m2.slots.length,
        m2.slots.countP fun s => decide (s.1 = status.dead))) =
    some (4, some (some 20), 18, 0) := by
  exact ⟨by decide, by decide⟩

/-- C8.  For every `expectedSize` and every fill factor (any real value,
i.e. any `FloatVal` with positive denominator), `New` returns a table of
capacity `⌊expectedSize / r⌋ + 1` where `r` is the fill factor if it
lies in `(0, 1]` and 0.5 otherwise; this capacity strictly exceeds
`expectedSize` (hence is at least 1), all slots start `Empty`, and the
count starts at 0.  `New` is a total function, so construction cannot
fail. -/
theorem claim_C8_new_capacity (K V : Type) [Inhabited K] [Inhabited V] (size : Nat)
    (f : FloatVal) (hden : 0 < f.den) :
    (New K V size f).slots.length =
      ⌊(size : ℚ) / (if 0 < f.toRat ∧ f.toRat ≤ 1 then f.toRat else 1 / 2)⌋₊ + 1 ∧
    size < (New K V size f).slots.length ∧
    (∀ s ∈ (New K V size f).slots, s.1 = status.empty) ∧
    (New K V size f).numEntries = 0 := by
  have hlen : (New K V size f).slots.length =
      size * (if f.num ≤ 0 ∨ (f.den : Int) < f.num then defaultFillFactor else f).den /
        (if f.num ≤ 0 ∨ (f.den : Int) < f.num then defaultFillFactor else f).num.toNat
        + 1 := by
    show (List.replicate _ _).length = _
    rw [List.length_replicate]
  have hmem : ∀ s ∈ (New K V size f).slots, s.1 = status.empty := by
    intro s hs
    simp only [New] at hs
    rw [List.eq_of_mem_replicate hs]
  by_cases hval : f.num ≤ 0 ∨ (f.den : Int) < f.num
  · have hcond : ¬ (0 < f.toRat ∧ f.toRat ≤ 1) := by
      rw [valid_iff f hden]
      exact not_not_intro hval
    refine ⟨?_, ?_, hmem, rfl⟩
    · rw [hlen, if_pos hval, if_neg hcond]
      have h12 : ((1 : ℚ) / 2) = (((1 : Int) : ℚ) / ((2 : Nat) : ℚ)) := by norm_num
      rw [h12, natfloor_div_pair size 1 2 (by norm_num)]
      norm_num [defaultFillFactor]
    · rw [hlen, if_pos hval]
      have : size * (defaultFillFactor).den / (defaultFillFactor).num.toNat =
          size * 2 := by
        norm_num [defaultFillFactor]
      omega
  · have hcond : 0 < f.toRat ∧ f.toRat ≤ 1 := (valid_iff f hden).mpr hval
    push_neg at hval
    refine ⟨?_, ?_, hmem, rfl⟩
    · rw [hlen, if_neg (by omega : ¬ (f.num ≤ 0 ∨ (f.den : Int) < f.num)),
        if_pos hcond, FloatVal.toRat, natfloor_div_pair size f.num f.den hval.1]
    · rw [hlen, if_neg (by omega : ¬ (f.num ≤ 0 ∨ (f.den : Int) < f.num))]
      have hle : size ≤ size * f.den / f.num.toNat := by
        rw [Nat.le_div_iff_mul_le (by omega : 0 < f.num.toNat)]
        exact Nat.mul_le_mul_left size (by omega : f.num.toNat ≤ f.den)
      omega

/-- Witness for C8 at `expectedSize = 4`, `fillFactor = 0.5`. -/
theorem claim_C8_witness :
    0 < (defaultFillFactor : FloatVal).den ∧
    ((New ℕ ℕ 4 defaultFillFactor).slots.length =
      ⌊((4 : ℕ) : ℚ) / (if 0 < defaultFillFactor.toRat ∧ defaultFillFactor.toRat ≤ 1
        then defaultFillFactor.toRat else 1 / 2)⌋₊ + 1 ∧
    4 < (New ℕ ℕ 4 defaultFillFactor).slots.length ∧
    (∀ s ∈ (New ℕ ℕ 4 defaultFillFactor).slots, s.1 = status.empty) ∧
    (New ℕ ℕ 4 defaultFillFactor).numEntries = 0) :=
  ⟨by decide, claim_C8_new_capacity ℕ ℕ 4 defaultFillFactor (by decide)⟩

/-- C9.  Every table reachable through the public API (any fill ratio,
including `expectedSize = 0`) has capacity at least 1, so the index
computation `hash(key) mod capacity` of `Get`, `Set` and `Delete` never
divides by zero and always lands strictly inside the array, and the
probe advance `i++` with wrap-around stays strictly inside the array. -/
theorem claim_C9_no_mod_zero {K V : Type} [DecidableEq K] [Inhabited K] [Inhabited V]
    (hash : K → Nat) (size : Nat) (f : FloatVal) (ops : List (Op K V)) (m : Map K V)
    (h : runOps hash ops (New K V size f) = some m) :
    0 < m.slots.length ∧
    (∀ hk : Nat, hashIdx hk m.slots.length < m.slots.length) ∧
    (∀ i : Nat, i < m.slots.length → nextIdx i m.slots.length < m.slots.length) := by
  have hpos : 0 < m.slots.length := capPos_runOps ops _ m (New_capPos size f) h
  refine ⟨hpos, fun hk => Nat.mod_lt _ hpos, fun i hi => ?_⟩
  unfold nextIdx
  split <;> omega

/-- Witness for C9: the table reached from `New(4, 0.5)` by
`Set(3, 7); Delete(3)`. -/
theorem claim_C9_witness :
    runOps id [Op.set 3 7, Op.del 3] (New ℕ ℕ 4 ⟨1, 2⟩) = some c9wstate ∧
    (0 < c9wstate.slots.length ∧
      (∀ hk : Nat, hashIdx hk c9wstate.slots.length < c9wstate.slots.length) ∧
      (∀ i : Nat, i < c9wstate.slots.length →
        nextIdx i c9wstate.slots.length < c9wstate.slots.length)) :=
  ⟨by decide, claim_C9_no_mod_zero id 4 ⟨1, 2⟩ [Op.set 3 7, Op.del 3] c9wstate (by decide)⟩

/-- C10.  A `Delete` that returns `false` (key absent, or table empty)
leaves the entire table — slots (keys, values, statuses), threshold and
count — unchanged, and subsequent `Get`s are unaffected.  (`Get` itself
never mutates the table: the Go body performs no writes, so its
translation `Get` is a pure function of the state.) -/
theorem claim_C10_delete_false_pure {K V : Type} [DecidableEq K] (hash : K → Nat)
    (m : Map K V) (k : K) (m' : Map K V) (h : Delete hash m k = some (false, m')) :
    m' = m ∧ ∀ kq : K, Get hash m' kq = Get hash m kq := by
  obtain ⟨ms, mt, mc⟩ := m
  have hm : m' = ⟨ms, mt, mc⟩ := by
    simp only [Delete] at h
    split at h
    · simp only [Option.some_inj, Prod.mk.injEq] at h
      exact h.2.symm
    · split at h
      · exact absurd h (by simp)
      · rename_i found slots' hdel
        simp only [Option.some_inj, Prod.mk.injEq] at h
        obtain ⟨hfound, hm'⟩ := h
        subst hfound
        obtain ⟨_, _, hfalse⟩ := deleteLoop_some_spec _ _ _ _ hdel
        have hs := hfalse rfl
        subst hs
        simp only [Bool.false_eq_true, if_false] at hm'
        exact hm'.symm
  subst hm
  exact ⟨rfl, fun _ => rfl⟩

/-- Witness for C10: deleting the absent key 5 from the empty table
`New(0, 0.5)`. -/
theorem claim_C10_witness :
    Delete id (New ℕ ℕ 0 ⟨1, 2⟩) 5 = some (false, New ℕ ℕ 0 ⟨1, 2⟩) ∧
    (New ℕ ℕ 0 ⟨1, 2⟩ = New ℕ ℕ 0 ⟨1, 2⟩ ∧
      ∀ kq : ℕ, Get id (New ℕ ℕ 0 ⟨1, 2⟩) kq = Get id (New ℕ ℕ 0 ⟨1, 2⟩) kq) :=
  ⟨by decide, claim_C10_delete_false_pure id (New ℕ ℕ 0 ⟨1, 2⟩) 5 (New ℕ ℕ 0 ⟨1, 2⟩)
    (by decide)⟩

end lpmap
